import Mathlib

/-!
# Blob detection and filtering core: verification development

Shallow embedding of `blob_detection_functions.py` (autophagy puncta counter).
Machine floating-point values are modelled as exact rationals (`ℚ`); the
numpy / scipy / skimage library routines the code calls are embedded following
their published implementations, as documented at each definition.

A blob record is the five-tuple `(z, y, x, scale, intensity)` carried as one
row of the `(N, 5)` numpy arrays the code passes between stages.
-/

namespace BlobDetect

/-- One row of the `(N, 5)` blob array: `z, y, x, sigma (scale), intensity`. -/
structure Blob where
  z : ℚ
  y : ℚ
  x : ℚ
  scale : ℚ
  intensity : ℚ
deriving DecidableEq, Repr, Inhabited

/-!
Kernel-computable forms of `abs`, `floor`, `ceil`, `min`, `max` on `ℚ` (the
Mathlib type-class versions do not reduce inside `decide`); each is proved
equal to its Mathlib counterpart below.
-/

/-- `⌊q⌋` as a direct rational computation. -/
def ratFloor (q : ℚ) : ℤ := q.num / (q.den : ℤ)

/-- `⌈q⌉` as a direct rational computation. -/
def ratCeil (q : ℚ) : ℤ := -ratFloor (-q)

/-- `|q|` as a direct rational computation. -/
def ratAbs (q : ℚ) : ℚ := if q < 0 then -q else q

/-- Binary minimum on `ℚ` as a direct computation. -/
def ratMin (a b : ℚ) : ℚ := if a ≤ b then a else b

/-- Binary maximum on `ℚ` as a direct computation. -/
def ratMax (a b : ℚ) : ℚ := if a ≤ b then b else a

/-- `np.round` / `np.rint`: round to nearest integer, ties to even. -/
def npRound (q : ℚ) : ℤ :=
  let f := ratFloor q
  let r := q - (f : ℚ)
  if r < 1/2 then f
  else if 1/2 < r then f + 1
  else if f % 2 = 0 then f else f + 1

/-- Python `int(...)` on a real value: truncation toward zero. -/
def intTrunc (q : ℚ) : ℤ := if 0 ≤ q then ratFloor q else ratCeil q

/-!
### `np.argsort` with the default `kind='quicksort'`

`np.argsort(keys)` runs numpy's introspective quicksort `aquicksort`
(numpy `npysort/quicksort.c.src`) over an index array
`tosort = [0, ..., n-1]`, comparing `keys` through the indices:

* segments with `pr - pl <= SMALL_QUICKSORT = 15` (so at most 16 elements)
  are insertion sorted, which is stable;
* longer segments are partitioned by a median-of-3 Hoare scheme whose scan
  loops stop on keys equal to the pivot and therefore exchange equal keys:
  the sort as a whole is NOT stable;
* a global depth budget `2 * floor(log2 n)` (decremented once per partition,
  shared across the whole traversal, smaller partition processed first)
  falls back to heapsort on exhaustion.

All index accesses use `getD` with default `0`; fuel arguments bound loops
that the C code runs to completion, and are chosen large enough that the
fuel is never exhausted on the paths the theorems below exercise.
-/

/-- Key lookup through the index array: `v[*p]` for `p` the slot `i` of `tosort`. -/
def keyAt (keys : List ℚ) (t : List ℕ) (i : ℕ) : ℚ := keys.getD (t.getD i 0) 0

/-- `INTP_SWAP(*a, *b)`: exchange two slots of the index array. -/
def swapIdx (t : List ℕ) (i j : ℕ) : List ℕ :=
  (t.set i (t.getD j 0)).set j (t.getD i 0)

/-- Insert index `i` into the already sorted index list `acc`: list form of one
step of `aquicksort`'s array insertion sort (shift left while strictly
smaller, so `i` lands after every key equal to its own — stable). -/
def insIdx (keys : List ℚ) : List ℕ → ℕ → List ℕ
  | [], i => [i]
  | j :: js, i =>
    if keys.getD i 0 < keys.getD j 0 then i :: j :: js else j :: insIdx keys js i

/-- Insertion sort of an index list (ascending by key, stable). -/
def insSortIdx (keys : List ℚ) (l : List ℕ) : List ℕ := l.foldl (insIdx keys) []

/-- Insertion-sort the inclusive segment `[pl, pr]` of the index array. -/
def insSeg (keys : List ℚ) (t : List ℕ) (pl pr : ℕ) : List ℕ :=
  t.take pl ++ insSortIdx keys ((t.drop pl).take (pr + 1 - pl)) ++ t.drop (pr + 1)

/-- `do ++pi; while (v[*pi] < vp)`: first slot after `pi` whose key is `≥ vp`. -/
def scanUp (keys : List ℚ) (t : List ℕ) (vp : ℚ) : ℕ → ℕ → ℕ
  | pi, 0 => pi + 1
  | pi, fuel + 1 =>
    if keyAt keys t (pi + 1) < vp then scanUp keys t vp (pi + 1) fuel else pi + 1

/-- `do --pj; while (vp < v[*pj])`: first slot before `pj` whose key is `≤ vp`. -/
def scanDown (keys : List ℚ) (t : List ℕ) (vp : ℚ) : ℕ → ℕ → ℕ
  | pj, 0 => pj - 1
  | pj, fuel + 1 =>
    if vp < keyAt keys t (pj - 1) then scanDown keys t vp (pj - 1) fuel else pj - 1

/-- Hoare partition scan loop; returns the array and the break position `pi`. -/
def partLoop (keys : List ℚ) (vp : ℚ) : List ℕ → ℕ → ℕ → ℕ → List ℕ × ℕ
  | t, pi, _, 0 => (t, pi)
  | t, pi, pj, fuel + 1 =>
    let pi' := scanUp keys t vp pi t.length
    let pj' := scanDown keys t vp pj t.length
    if pj' ≤ pi' then (t, pi')
    else partLoop keys vp (swapIdx t pi' pj') pi' pj' fuel

/-- One conditional exchange of the median-of-3 pivot selection:
`if (v[*b] < v[*a]) INTP_SWAP(*b, *a)`. -/
def med3Swap (keys : List ℚ) (t : List ℕ) (i j : ℕ) : List ℕ :=
  if keyAt keys t i < keyAt keys t j then swapIdx t i j else t

/-- Median-of-3 pivot selection plus Hoare partition of `[pl, pr]`; returns the
updated index array and the final pivot position. -/
def doPart (keys : List ℚ) (t : List ℕ) (pl pr : ℕ) : List ℕ × ℕ :=
  let pm := pl + (pr - pl) / 2
  let t1 := med3Swap keys t pm pl
  let t2 := med3Swap keys t1 pr pm
  let t3 := med3Swap keys t2 pm pl
  let vp := keyAt keys t3 pm
  let t4 := swapIdx t3 pm (pr - 1)
  let r := partLoop keys vp t4 pl (pr - 1) (pr - pl + 2)
  (swapIdx r.1 r.2 (pr - 1), r.2)

/-- 1-based slot read of the heap living on segment `[pl, pl + n - 1]`. -/
def hGet (t : List ℕ) (pl k : ℕ) : ℕ := t.getD (pl + k - 1) 0

/-- 1-based slot write of the heap living on segment `[pl, pl + n - 1]`. -/
def hSet (t : List ℕ) (pl k v : ℕ) : List ℕ := t.set (pl + k - 1) v

/-- Sift-down loop of numpy's `aheapsort` (both phases share it). -/
def siftDown (keys : List ℚ) (pl n tmp : ℕ) : List ℕ → ℕ → ℕ → ℕ → List ℕ
  | t, i, _, 0 => hSet t pl i tmp
  | t, i, j, fuel + 1 =>
    if j ≤ n then
      let j' := if j < n ∧ keys.getD (hGet t pl j) 0 < keys.getD (hGet t pl (j + 1)) 0
                then j + 1 else j
      if keys.getD tmp 0 < keys.getD (hGet t pl j') 0 then
        siftDown keys pl n tmp (hSet t pl i (hGet t pl j')) j' (j' + j') fuel
      else hSet t pl i tmp
    else hSet t pl i tmp

/-- Heap construction phase: `for (l = n >> 1; l > 0; --l)` sift `a[l]`. -/
def heapBuild (keys : List ℚ) (pl n : ℕ) : List ℕ → ℕ → List ℕ
  | t, 0 => t
  | t, l + 1 =>
    let t' := siftDown keys pl n (hGet t pl (l + 1)) t (l + 1) ((l + 1) * 2) (n + 2)
    heapBuild keys pl n t' l

/-- Heap extraction phase: repeatedly move `a[n]` to the root and sift. -/
def heapExtract (keys : List ℚ) (pl : ℕ) : List ℕ → ℕ → List ℕ
  | t, 0 => t
  | t, 1 => t
  | t, n + 2 =>
    let tmp := hGet t pl (n + 2)
    let t' := hSet t pl (n + 2) (hGet t pl 1)
    let t'' := siftDown keys pl (n + 1) tmp t' 1 2 (n + 3)
    heapExtract keys pl t'' (n + 1)

/-- numpy `aheapsort` on the inclusive segment `[pl, pr]`. -/
def heapSeg (keys : List ℚ) (t : List ℕ) (pl pr : ℕ) : List ℕ :=
  let n := pr + 1 - pl
  heapExtract keys pl (heapBuild keys pl n t (n / 2)) n

/-- Introsort driver on the inclusive segment `[pl, pr]`, threading the global
depth budget exactly as `aquicksort` does (check `depth < 0` before each
partition, decrement per partition, smaller partition first). -/
def qsSeg (keys : List ℚ) : List ℕ → ℕ → ℕ → ℤ → ℕ → List ℕ × ℤ
  | t, _, _, depth, 0 => (t, depth)
  | t, pl, pr, depth, fuel + 1 =>
    if 15 < pr - pl then
      if depth < 0 then (heapSeg keys t pl pr, depth - 1)
      else
        let r := doPart keys t pl pr
        let pi := r.2
        if pi - pl < pr - pi then
          let r2 := qsSeg keys r.1 pl (pi - 1) (depth - 1) fuel
          qsSeg keys r2.1 (pi + 1) pr r2.2 fuel
        else
          let r2 := qsSeg keys r.1 (pi + 1) pr (depth - 1) fuel
          qsSeg keys r2.1 pl (pi - 1) r2.2 fuel
    else (insSeg keys t pl pr, depth)

/-- `np.argsort(keys)` with the default `kind='quicksort'`. -/
def npArgsort (keys : List ℚ) : List ℕ :=
  (qsSeg keys (List.range keys.length) 0 (keys.length - 1)
    (2 * (Nat.log2 keys.length : ℤ)) (keys.length + 2)).1

/-!
### Volumes and masks

A 3D volume (`depth × height × width`) is modelled by its dimensions and a
total value function; the code only reads voxels whose indices it has bounds
checked (negative-index wrap-around is never exercised by the claims).
-/

/-- A 3D scalar volume. -/
structure Image3 where
  depth : ℕ
  height : ℕ
  width : ℕ
  val : ℤ → ℤ → ℤ → ℚ

/-- A 3D binary mask. -/
structure Mask3 where
  depth : ℕ
  height : ℕ
  width : ℕ
  val : ℤ → ℤ → ℤ → Bool

/-- Voxel `(z, y, x)` lies within the array bounds on every axis. -/
def inBounds3 (d h w : ℕ) (z y x : ℤ) : Prop :=
  0 ≤ z ∧ z < (d : ℤ) ∧ 0 ≤ y ∧ y < (h : ℤ) ∧ 0 ≤ x ∧ x < (w : ℤ)

instance (d h w : ℕ) (z y x : ℤ) : Decidable (inBounds3 d h w z y x) :=
  inferInstanceAs (Decidable (_ ∧ _ ∧ _ ∧ _ ∧ _ ∧ _))

/-!
### ProximitySuppressor: `suppress_close_blobs_by_intensity`

Sort by descending intensity (`np.argsort(-blobs[:, 4])`), then run the
greedy nested scan over a mutable keep mask.  The mask is carried alongside
each record; the inner loop over the later indices `j` is elementwise
(clear the flag when the record is still kept and falls inside the Z-window
and XY-radius cylinder of the current outer record), so it is a `map`.
-/

/-- `blobs[np.argsort(-blobs[:, 4])]`: the records in the processing order. -/
def sortBlobsDesc (blobs : List Blob) : List Blob :=
  (npArgsort (blobs.map fun b => -b.intensity)).map fun i => blobs.getD i default

/-- `abs(z1 - z0) <= z_window and (y1-y0)**2 + (x1-x0)**2 <= radius_xy**2`. -/
def inWindow (z_window radius_xy : ℚ) (a b : Blob) : Prop :=
  ratAbs (b.z - a.z) ≤ z_window ∧ (b.y - a.y) ^ 2 + (b.x - a.x) ^ 2 ≤ radius_xy ^ 2

instance (zw rxy : ℚ) (a b : Blob) : Decidable (inWindow zw rxy a b) :=
  inferInstanceAs (Decidable (_ ∧ _))

/-- Inner loop of the proximity scan: clear the keep flag of every later
record that is still kept and lies in the cylinder of `b0`. -/
def innerPass (z_window radius_xy : ℚ) (b0 : Blob) (l : List (Blob × Bool)) :
    List (Blob × Bool) :=
  l.map fun p => if p.2 = true ∧ inWindow z_window radius_xy b0 p.1 then (p.1, false) else p

/-- Outer loop of the proximity scan: ascending over the sorted records,
skipping records whose keep flag was already cleared.  The structural fuel
is set to the list length at the call site (the inner pass preserves the
length, so the fuel is never exhausted). -/
def outerPass (z_window radius_xy : ℚ) : ℕ → List (Blob × Bool) → List (Blob × Bool)
  | _, [] => []
  | 0, l => l
  | fuel + 1, p :: rest =>
    if p.2 = true then
      p :: outerPass z_window radius_xy fuel (innerPass z_window radius_xy p.1 rest)
    else p :: outerPass z_window radius_xy fuel rest

/-- `blobs_sorted[keep_mask]`: the records whose keep flag survived. -/
def keptBlobs (l : List (Blob × Bool)) : List Blob :=
  (l.filter fun p => p.2).map Prod.fst

/-- `suppress_close_blobs_by_intensity(blobs, radius_xy, z_window)`. -/
def suppress_close_blobs_by_intensity (blobs : List Blob) (radius_xy z_window : ℚ) :
    List Blob :=
  if blobs = [] then blobs
  else
    let l0 := (sortBlobsDesc blobs).map fun b => (b, true)
    keptBlobs (outerPass z_window radius_xy l0.length l0)

/-!
### BridgeSuppressor: `suppress_blobs_by_bridge_intensity`

The straight 3D line between the truncated centers is rasterized by
`skimage.draw.line_nd(start, stop)` with its default `endpoint=False`:
`npoints = ceil(max |stop - start|)`, each axis sampled by
`np.linspace(start, stop, npoints, endpoint=False)` and rounded by skimage's
`_round_safe` (floor when the coordinates start on an exact `.5` fraction
with step 1, `np.round` otherwise).
-/

/-- `np.linspace(start, stop, num, endpoint=False)`. -/
def npLinspaceNoEnd (start stop : ℚ) (num : ℕ) : List ℚ :=
  (List.range num).map fun k => start + k * ((stop - start) / num)

/-- skimage `draw._round_safe`. -/
def roundSafe (coords : List ℚ) : List ℤ :=
  match coords with
  | c0 :: c1 :: _ =>
    if c0 - (ratFloor c0 : ℚ) = 1/2 ∧ c1 - c0 = 1 then coords.map ratFloor
    else coords.map npRound
  | _ => coords.map npRound

/-- skimage `draw.line_nd` for three dimensions, integer endpoints. -/
def lineND (z1 y1 x1 z2 y2 x2 : ℤ) : List (ℤ × ℤ × ℤ) :=
  let npoints := max (z2 - z1).natAbs (max (y2 - y1).natAbs (x2 - x1).natAbs)
  let zs := roundSafe (npLinspaceNoEnd z1 z2 npoints)
  let ys := roundSafe (npLinspaceNoEnd y1 y2 npoints)
  let xs := roundSafe (npLinspaceNoEnd x1 x2 npoints)
  zs.zip (ys.zip xs)

/-- `np.min` of a value list.  On an empty list numpy would raise; the
default value is never exercised by the theorems below (their lines are
nonempty). -/
def minList : List ℚ → ℚ
  | [] => 0
  | v :: vs => vs.foldl ratMin v

/-- `dip_ratio = min_val / avg_peak` for the line between two blobs. -/
def dipVal (img : Image3) (b1 b2 : Blob) : ℚ :=
  let coords := lineND (intTrunc b1.z) (intTrunc b1.y) (intTrunc b1.x)
    (intTrunc b2.z) (intTrunc b2.y) (intTrunc b2.x)
  let values := coords.map fun c => img.val c.1 c.2.1 c.2.2
  minList values / ((b1.intensity + b2.intensity) / 2)

/-- A later record `p` triggers the bridge test against the outer record `b1`:
still kept, inside the Z-window and XY-radius gates, and the sampled line
between the two does not dip (`dip_ratio > dip_threshold`). -/
def bridgeHit (img : Image3) (radius_xy z_window dip_threshold : ℚ) (b1 : Blob)
    (p : Blob × Bool) : Prop :=
  p.2 = true ∧ ratAbs (p.1.z - b1.z) ≤ z_window ∧
    (p.1.y - b1.y) ^ 2 + (p.1.x - b1.x) ^ 2 ≤ radius_xy ^ 2 ∧
    dip_threshold < dipVal img b1 p.1

instance (img : Image3) (rxy zw dt : ℚ) (b1 : Blob) (p : Blob × Bool) :
    Decidable (bridgeHit img rxy zw dt b1 p) :=
  inferInstanceAs (Decidable (_ ∧ _ ∧ _ ∧ _))

/-- Inner loop of the bridge scan for outer record `b1`: on a hit, drop the
later record and continue when `intensity1 > intensity2`, otherwise drop
`b1` itself and break (the remaining records are left untouched).  Returns
the updated tail and whether `b1` survived. -/
def bridgeInner (img : Image3) (radius_xy z_window dip_threshold : ℚ) (b1 : Blob) :
    List (Blob × Bool) → List (Blob × Bool) × Bool
  | [] => ([], true)
  | p :: rest =>
    if bridgeHit img radius_xy z_window dip_threshold b1 p then
      if p.1.intensity < b1.intensity then
        let r := bridgeInner img radius_xy z_window dip_threshold b1 rest
        ((p.1, false) :: r.1, r.2)
      else (p :: rest, false)
    else
      let r := bridgeInner img radius_xy z_window dip_threshold b1 rest
      (p :: r.1, r.2)

/-- Outer loop of the bridge scan.  As with `outerPass`, the structural fuel
is the list length at the call site (the inner pass preserves the length). -/
def bridgeOuter (img : Image3) (radius_xy z_window dip_threshold : ℚ) :
    ℕ → List (Blob × Bool) → List (Blob × Bool)
  | _, [] => []
  | 0, l => l
  | fuel + 1, p :: rest =>
    if p.2 = true then
      let r := bridgeInner img radius_xy z_window dip_threshold p.1 rest
      (p.1, r.2) :: bridgeOuter img radius_xy z_window dip_threshold fuel r.1
    else p :: bridgeOuter img radius_xy z_window dip_threshold fuel rest

/-- `suppress_blobs_by_bridge_intensity(blobs, image, radius_xy, z_window,
dip_threshold)`. -/
def suppress_blobs_by_bridge_intensity (blobs : List Blob) (img : Image3)
    (radius_xy z_window dip_threshold : ℚ) : List Blob :=
  if blobs = [] then blobs
  else
    let l0 := (sortBlobsDesc blobs).map fun b => (b, true)
    keptBlobs (bridgeOuter img radius_xy z_window dip_threshold l0.length l0)

/-!
### LocalContrastFilter: `filter_blobs_by_local_intensity`

The loop appends a record exactly when the rounded center passes the bounds
test and the intensity test, so it is a `List.filter`.
-/

/-- Sum of the volume over the square XY region of half-width `rs` at `(z, y, x)`. -/
def regionSum (img : Image3) (z y x : ℤ) (rs : ℕ) : ℚ :=
  ((List.range (2 * rs + 1)).map fun dy =>
    ((List.range (2 * rs + 1)).map fun dx =>
      img.val z (y - rs + dy) (x - rs + dx)).sum).sum

/-- `region.mean()` over the `(2*rs+1) × (2*rs+1)` XY region. -/
def localMean (img : Image3) (z y x : ℤ) (rs : ℕ) : ℚ :=
  regionSum img z y x rs / ((2 * rs + 1 : ℚ) ^ 2)

/-- `filter_blobs_by_local_intensity(image, blobs, region_size, ratio_threshold)`. -/
def filter_blobs_by_local_intensity (img : Image3) (blobs : List Blob)
    (region_size : ℕ) (ratio_threshold : ℚ) : List Blob :=
  blobs.filter fun b =>
    let z := npRound b.z
    let y := npRound b.y
    let x := npRound b.x
    decide ((region_size : ℤ) ≤ y ∧ y < (img.height : ℤ) - region_size ∧
      (region_size : ℤ) ≤ x ∧ x < (img.width : ℤ) - region_size ∧
      0 ≤ z ∧ z < (img.depth : ℤ) ∧
      ratio_threshold * localMean img z y x region_size < b.intensity)

/-!
### SharpnessFilter: `filter_blobs_by_sharpness`
-/

/-- `local_cube.mean()` over the 3×3×3 cube centered at `(z, y, x)`. -/
def cubeMean (img : Image3) (z y x : ℤ) : ℚ :=
  (((List.range 3).map fun dz =>
    ((List.range 3).map fun dy =>
      ((List.range 3).map fun dx =>
        img.val (z - 1 + dz) (y - 1 + dy) (x - 1 + dx)).sum).sum).sum) / 27

/-- `filter_blobs_by_sharpness(blobs, image, drop_factor)`. -/
def filter_blobs_by_sharpness (blobs : List Blob) (img : Image3) (drop_factor : ℚ) :
    List Blob :=
  blobs.filter fun b =>
    let z := npRound b.z
    let y := npRound b.y
    let x := npRound b.x
    decide (0 < z ∧ z < (img.depth : ℤ) - 1 ∧ 0 < y ∧ y < (img.height : ℤ) - 1 ∧
      0 < x ∧ x < (img.width : ℤ) - 1 ∧
      drop_factor * cubeMean img z y x < img.val z y x)

/-!
### MaskBoundaryFilter: `filter_blobs_outside_eroded_mask`

`scipy.ndimage.binary_erosion` with its default structuring element
(`generate_binary_structure(3, 1)`: the center voxel and its six face
neighbors) and default `border_value=0`, applied `erosion_iterations` times.
A voxel survives one erosion step iff it is set and each of its six face
neighbors is inside the array and set.
-/

/-- One step of 6-connected binary erosion with zero border value. -/
def erodeOnce (m : Mask3) : Mask3 :=
  { m with val := fun z y x =>
      m.val z y x &&
      (decide (inBounds3 m.depth m.height m.width (z - 1) y x) && m.val (z - 1) y x) &&
      (decide (inBounds3 m.depth m.height m.width (z + 1) y x) && m.val (z + 1) y x) &&
      (decide (inBounds3 m.depth m.height m.width z (y - 1) x) && m.val z (y - 1) x) &&
      (decide (inBounds3 m.depth m.height m.width z (y + 1) x) && m.val z (y + 1) x) &&
      (decide (inBounds3 m.depth m.height m.width z y (x - 1)) && m.val z y (x - 1)) &&
      (decide (inBounds3 m.depth m.height m.width z y (x + 1)) && m.val z y (x + 1)) }

/-- `binary_erosion(mask, iterations=k)` for `k ≥ 1` (the source default is 10;
scipy gives `iterations=0` the unrelated meaning "iterate to stability"). -/
def erodeIter (m : Mask3) : ℕ → Mask3
  | 0 => m
  | k + 1 => erodeOnce (erodeIter m k)

/-- `filter_blobs_outside_eroded_mask(blobs, original_mask, erosion_iterations)`:
returns the surviving blobs and the eroded mask. -/
def filter_blobs_outside_eroded_mask (blobs : List Blob) (original_mask : Mask3)
    (erosion_iterations : ℕ) : List Blob × Mask3 :=
  let eroded := erodeIter original_mask erosion_iterations
  (blobs.filter fun b =>
    let z := npRound b.z
    let y := npRound b.y
    let x := npRound b.x
    decide (inBounds3 original_mask.depth original_mask.height original_mask.width z y x) &&
      !(original_mask.val z y x && !(eroded.val z y x)),
  eroded)

/-!
### Detector threshold resolution (`detect_blobs`, lines 10–22)

`np.percentile` with the default linear interpolation over the sorted
flattened volume; the subsequent float division `calculated_threshold /
image.max()` silently produces NaN (`0/0`) or ±Inf (`t/0`, `t ≠ 0`) when the
global maximum is zero — numpy emits a RuntimeWarning, not an exception.
The outcome type records exactly these cases plus the `ValueError` raised
for an unrecognized `threshold_mode`.
-/

/-- A volume as the dense array the detector receives. -/
abbrev Volume := List (List (List ℚ))

/-- All voxel values of a volume. -/
def volFlatten (v : Volume) : List ℚ := (v.map fun plane => plane.flatten).flatten

/-- `image.max()` (the code never takes it on an empty volume). -/
def npMax (v : Volume) : ℚ :=
  match volFlatten v with
  | [] => 0
  | x :: xs => xs.foldl ratMax x

/-- Insert a value into an ascending list. -/
def insQ : List ℚ → ℚ → List ℚ
  | [], q => [q]
  | a :: as', q => if q < a then q :: a :: as' else a :: insQ as' q

/-- Ascending sort of the flattened values. -/
def sortQ (l : List ℚ) : List ℚ := l.foldl insQ []

/-- `np.percentile(image, q)` with the default linear interpolation. -/
def npPercentile (v : Volume) (q : ℚ) : ℚ :=
  let a := sortQ (volFlatten v)
  let idx := ((a.length : ℚ) - 1) * q / 100
  let lo := ratFloor idx
  let hi := ratCeil idx
  let alo := a.getD lo.toNat 0
  let ahi := a.getD hi.toNat 0
  alo + (idx - (lo : ℚ)) * (ahi - alo)

/-- Outcome of the threshold-resolution phase of `detect_blobs`. -/
inductive ThreshOutcome where
  | valueError : ThreshOutcome
  | nan : ThreshOutcome
  | infinite : ThreshOutcome
  | ok : ℚ → ThreshOutcome
deriving DecidableEq, Repr

/-- Float division `t / M`: silently non-finite when `M = 0`. -/
def floatDiv (t M : ℚ) : ThreshOutcome :=
  if M = 0 then (if t = 0 then .nan else .infinite) else .ok (t / M)

/-- The threshold-resolution phase of `detect_blobs` (lines 10–22): percentile
mode normalizes the computed percentile by the global maximum, absolute mode
normalizes the literal value, anything else raises `ValueError`. -/
def resolve_threshold (image : Volume) (threshold_mode : String) (threshold_value : ℚ) :
    ThreshOutcome :=
  if threshold_mode = "percentile" then
    floatDiv (npPercentile image threshold_value) (npMax image)
  else if threshold_mode = "absolute" then
    floatDiv threshold_value (npMax image)
  else .valueError

/-!
### `detect_blob_intensities`

Input rows are `(z, y, x, sigma)`; the function appends a measured intensity
column (`np.nan` when the rounded center has no full in-bounds 3×3 XY patch
or an invalid slice index), dropping no record.  The appended column is
modelled as `Option ℚ` with `none` for the NaN sentinel.
-/

/-- A detector candidate before intensity measurement: `z, y, x, sigma`. -/
structure RawBlob where
  z : ℚ
  y : ℚ
  x : ℚ
  scale : ℚ
deriving DecidableEq, Repr, Inhabited

/-- `patch.mean()` over the 3×3 XY patch centered at `(z, y, x)`. -/
def patchMean3 (img : Image3) (z y x : ℤ) : ℚ :=
  (((List.range 3).map fun dy =>
    ((List.range 3).map fun dx =>
      img.val z (y - 1 + dy) (x - 1 + dx)).sum).sum) / 9

/-- `detect_blob_intensities(image, blobs)`: the per-record intensities, then
`np.hstack` of the input rows with the new column. -/
def detect_blob_intensities (img : Image3) (blobs : List RawBlob) :
    List (RawBlob × Option ℚ) :=
  let blob_intensities := blobs.map fun b =>
    let z := npRound b.z
    let y := npRound b.y
    let x := npRound b.x
    if 1 ≤ y ∧ y < (img.height : ℤ) - 1 ∧ 1 ≤ x ∧ x < (img.width : ℤ) - 1 ∧
        0 ≤ z ∧ z < (img.depth : ℤ) then
      some (patchMean3 img z y x)
    else none
  blobs.zip blob_intensities

/-!
### Declarative description of the bridge inner loop

`bridgeInnerSpec` states the first-disqualifying-pair semantics of the inner
loop in closed form, following the specification's words: scanning stops at
the first later record that is still kept, inside both gates, has
`dip_ratio > dip_threshold` and is not strictly weaker than the outer record
(that pair excludes the outer record itself); every earlier record that hits
with the outer record strictly stronger is marked excluded; everything from
the stopping point on is untouched.
-/

/-- A hit that excludes the outer record `b1` itself (inner-loop break). -/
def bridgeKills (img : Image3) (radius_xy z_window dip_threshold : ℚ) (b1 : Blob)
    (p : Blob × Bool) : Prop :=
  bridgeHit img radius_xy z_window dip_threshold b1 p ∧ ¬(p.1.intensity < b1.intensity)

instance (img : Image3) (rxy zw dt : ℚ) (b1 : Blob) (p : Blob × Bool) :
    Decidable (bridgeKills img rxy zw dt b1 p) :=
  inferInstanceAs (Decidable (_ ∧ _))

/-- Mark one record: excluded when it hits against the outer record `b1`. -/
def bridgeMark (img : Image3) (radius_xy z_window dip_threshold : ℚ) (b1 : Blob)
    (p : Blob × Bool) : Blob × Bool :=
  if bridgeHit img radius_xy z_window dip_threshold b1 p then (p.1, false) else p

/-- Declarative form of the bridge inner loop (see section comment). -/
def bridgeInnerSpec (img : Image3) (radius_xy z_window dip_threshold : ℚ) (b1 : Blob)
    (l : List (Blob × Bool)) : List (Blob × Bool) × Bool :=
  let keep := fun p => !decide (bridgeKills img radius_xy z_window dip_threshold b1 p)
  let pre := l.takeWhile keep
  let post := l.dropWhile keep
  (pre.map (bridgeMark img radius_xy z_window dip_threshold b1) ++ post, post.isEmpty)

/-!
### Concrete inputs used by counterexamples and witnesses
-/

/-- An all-zero 2×2 volume slice stack. -/
def vol0 : Volume := [[[0, 0], [0, 0]]]

/-- The stronger blob of the bridge scenario (intensity 200 at `x = 10`). -/
def bA : Blob := ⟨0, 0, 10, 2, 200⟩

/-- The weaker blob of the bridge scenario (intensity 190 at `x = 40`), 30 px
from `bA` in XY. -/
def bB : Blob := ⟨0, 0, 40, 2, 190⟩

/-- A 1×1×50 volume whose values along the line between `bA` and `bB` are 200
at the `bA` voxel and 190 elsewhere, so the minimum sampled intensity on the
connecting line is 190 while the average peak intensity is 195. -/
def img5 : Image3 :=
  ⟨1, 1, 50, fun z y x =>
    if z = 0 ∧ y = 0 ∧ x = 10 then 200
    else if z = 0 ∧ y = 0 ∧ 11 ≤ x ∧ x ≤ 39 then 190 else 0⟩

/-- Seventeen records of equal intensity 5, pairwise more than any reasonable
XY radius apart (`y = 0, 100, ..., 1600`), listed in input order. -/
def ex17 : List Blob := (List.range 17).map fun k => ⟨0, (100 * k : ℕ), 0, 2, 5⟩

/-- All entries of an index list are valid positions into a length-`n` array
(invariant carried through every phase of the sort). -/
def IdxBound (n : ℕ) (t : List ℕ) : Prop := ∀ x ∈ t, x < n

/-!
## Lemmas: kernel-computable rational primitives agree with Mathlib
-/

theorem ratFloor_eq (q : ℚ) : ratFloor q = ⌊q⌋ := Rat.floor_def.symm

theorem ratCeil_eq (q : ℚ) : ratCeil q = ⌈q⌉ := by
  rw [ratCeil, ratFloor_eq, Int.floor_neg, neg_neg]

theorem ratAbs_eq (q : ℚ) : ratAbs q = |q| := by
  unfold ratAbs
  split
  · rw [abs_of_neg]; assumption
  · rw [abs_of_nonneg]; linarith

theorem bridgeInner_length (img : Image3) (rxy zw dt : ℚ) (b1 : Blob)
    (l : List (Blob × Bool)) : (bridgeInner img rxy zw dt b1 l).1.length = l.length := by
  induction l with
  | nil => rfl
  | cons p rest ih =>
    simp only [bridgeInner]
    split
    · split
      · simpa using ih
      · simp
    · simpa using ih

/-!
## Lemmas: ProximitySuppressor greedy scan

The keep-mask scan only ever clears flags; a record that is kept at the end
was kept throughout, so every surviving pair was actually compared and found
outside the cylinder.
-/

theorem outerPass_nil (zw rxy : ℚ) (fuel : ℕ) : outerPass zw rxy fuel [] = [] := by
  cases fuel <;> rfl

theorem outerPass_cons (zw rxy : ℚ) (fuel : ℕ) (p : Blob × Bool)
    (rest : List (Blob × Bool)) :
    outerPass zw rxy (fuel + 1) (p :: rest) =
      if p.2 = true then p :: outerPass zw rxy fuel (innerPass zw rxy p.1 rest)
      else p :: outerPass zw rxy fuel rest := rfl

theorem keptBlobs_nil : keptBlobs [] = [] := rfl

theorem keptBlobs_cons (p : Blob × Bool) (l : List (Blob × Bool)) :
    keptBlobs (p :: l) = if p.2 = true then p.1 :: keptBlobs l else keptBlobs l := by
  by_cases h : p.2 = true <;> simp [keptBlobs, List.filter_cons, h]

theorem mem_innerPass_true (zw rxy : ℚ) (b0 : Blob) (l : List (Blob × Bool)) (c : Blob)
    (h : (c, true) ∈ innerPass zw rxy b0 l) :
    (c, true) ∈ l ∧ ¬ inWindow zw rxy b0 c := by
  simp only [innerPass, List.mem_map] at h
  obtain ⟨p, hp, he⟩ := h
  by_cases hcond : p.2 = true ∧ inWindow zw rxy b0 p.1
  · rw [if_pos hcond] at he
    simp at he
  · rw [if_neg hcond] at he
    subst he
    refine ⟨hp, fun hw => hcond ⟨rfl, hw⟩⟩

theorem mem_keptBlobs_outerPass (zw rxy : ℚ) :
    ∀ (n : ℕ) (l : List (Blob × Bool)), l.length ≤ n →
      ∀ c, c ∈ keptBlobs (outerPass zw rxy n l) → (c, true) ∈ l := by
  intro n
  induction n with
  | zero =>
    intro l hl c hc
    rw [List.length_eq_zero.mp (Nat.le_zero.mp hl)] at hc ⊢
    simp [outerPass_nil, keptBlobs_nil] at hc
  | succ n ih =>
    intro l hl c hc
    match l with
    | [] => simp [outerPass_nil, keptBlobs_nil] at hc
    | p :: rest =>
      rw [outerPass_cons] at hc
      by_cases hk : p.2 = true
      · rw [if_pos hk, keptBlobs_cons] at hc
        simp only [if_pos hk] at hc
        rcases List.mem_cons.mp hc with h | h
        · have hp : p = (c, true) := by
            cases p with
            | mk b k => simp_all
          rw [hp]
          exact List.mem_cons_self _ _
        · have hlen : (innerPass zw rxy p.1 rest).length ≤ n := by
            simpa [innerPass] using Nat.le_of_succ_le_succ hl
          have := ih _ hlen c h
          exact List.mem_cons_of_mem _ (mem_innerPass_true zw rxy p.1 rest c this).1
      · rw [if_neg hk, keptBlobs_cons] at hc
        simp only [if_neg hk] at hc
        have hlen : rest.length ≤ n := Nat.le_of_succ_le_succ hl
        exact List.mem_cons_of_mem _ (ih _ hlen c hc)

theorem pairwise_keptBlobs_outerPass (zw rxy : ℚ) :
    ∀ (n : ℕ) (l : List (Blob × Bool)), l.length ≤ n →
      (keptBlobs (outerPass zw rxy n l)).Pairwise (fun a b => ¬ inWindow zw rxy a b) := by
  intro n
  induction n with
  | zero =>
    intro l hl
    rw [List.length_eq_zero.mp (Nat.le_zero.mp hl)]
    simp [outerPass_nil, keptBlobs_nil]
  | succ n ih =>
    intro l hl
    match l with
    | [] => simp [outerPass_nil, keptBlobs_nil]
    | p :: rest =>
      rw [outerPass_cons]
      by_cases hk : p.2 = true
      · rw [if_pos hk, keptBlobs_cons]
        simp only [if_pos hk]
        have hlen : (innerPass zw rxy p.1 rest).length ≤ n := by
          simpa [innerPass] using Nat.le_of_succ_le_succ hl
        refine List.Pairwise.cons ?_ (ih _ hlen)
        intro c hc
        have hmem := mem_keptBlobs_outerPass zw rxy n _ hlen c hc
        exact (mem_innerPass_true zw rxy p.1 rest c hmem).2
      · rw [if_neg hk, keptBlobs_cons]
        simp only [if_neg hk]
        exact ih _ (Nat.le_of_succ_le_succ hl)

/-!
## Lemmas: every index produced by `npArgsort` is in range

Every slot the sort machinery ever writes holds either a value already in
the index array or the `getD` default `0`, so with `0 < n` the invariant
"all entries are `< n`" is preserved by every phase.
-/

theorem IdxBound.getD (h : IdxBound n t) (hn : 0 < n) (i : ℕ) : t.getD i 0 < n := by
  by_cases hi : i < t.length
  · rw [List.getD_eq_getElem t 0 hi]
    exact h _ (List.getElem_mem hi)
  · rw [List.getD_eq_default t 0 (Nat.le_of_not_lt hi)]
    exact hn

theorem IdxBound.set (h : IdxBound n t) (hv : v < n) (i : ℕ) : IdxBound n (t.set i v) := by
  intro x hx
  rcases List.mem_or_eq_of_mem_set hx with hx | rfl
  · exact h _ hx
  · exact hv

theorem IdxBound.swap (h : IdxBound n t) (hn : 0 < n) (i j : ℕ) :
    IdxBound n (swapIdx t i j) :=
  ((h.set (h.getD hn j) i).set (h.getD hn i) j)

theorem mem_insIdx (keys : List ℚ) (acc : List ℕ) (i x : ℕ)
    (h : x ∈ insIdx keys acc i) : x = i ∨ x ∈ acc := by
  induction acc with
  | nil => simpa [insIdx] using h
  | cons j js ih =>
    rw [insIdx] at h
    split at h
    · rcases List.mem_cons.mp h with rfl | h
      · exact Or.inl rfl
      · exact Or.inr h
    · rcases List.mem_cons.mp h with rfl | h
      · exact Or.inr (List.mem_cons_self _ _)
      · rcases ih h with rfl | h
        · exact Or.inl rfl
        · exact Or.inr (List.mem_cons_of_mem _ h)

theorem mem_foldl_insIdx (keys : List ℚ) (x : ℕ) :
    ∀ (l : List ℕ) (acc : List ℕ), x ∈ List.foldl (insIdx keys) acc l → x ∈ acc ∨ x ∈ l := by
  intro l
  induction l with
  | nil => intro acc h; exact Or.inl h
  | cons i is ih =>
    intro acc h
    rcases ih (insIdx keys acc i) h with h | h
    · rcases mem_insIdx keys acc i x h with rfl | h
      · exact Or.inr (List.mem_cons_self _ _)
      · exact Or.inl h
    · exact Or.inr (List.mem_cons_of_mem _ h)

theorem mem_insSortIdx (keys : List ℚ) (l : List ℕ) (x : ℕ)
    (h : x ∈ insSortIdx keys l) : x ∈ l := by
  rcases mem_foldl_insIdx keys x l [] h with h | h
  · simp at h
  · exact h

theorem IdxBound.iseg (h : IdxBound n t) (keys : List ℚ) (pl pr : ℕ) :
    IdxBound n (insSeg keys t pl pr) := by
  intro x hx
  unfold insSeg at hx
  rcases List.mem_append.mp hx with hx | hx
  · rcases List.mem_append.mp hx with hx | hx
    · exact h _ ((List.take_sublist _ _).mem hx)
    · have h1 := mem_insSortIdx _ _ _ hx
      have h2 := (List.take_sublist _ _).mem h1
      exact h _ ((List.drop_sublist _ _).mem h2)
  · exact h _ ((List.drop_sublist _ _).mem hx)

theorem IdxBound.hset (h : IdxBound n t) (hv : v < n) (pl k : ℕ) :
    IdxBound n (hSet t pl k v) := h.set hv _

theorem IdxBound.hget (h : IdxBound n t) (hn : 0 < n) (pl k : ℕ) : hGet t pl k < n :=
  h.getD hn _

theorem IdxBound.sift (hn : 0 < n) (keys : List ℚ) (pl m tmp : ℕ) (htmp : tmp < n) :
    ∀ (fuel : ℕ) (t : List ℕ) (i j : ℕ), IdxBound n t →
      IdxBound n (siftDown keys pl m tmp t i j fuel) := by
  intro fuel
  induction fuel with
  | zero => intro t i j h; exact h.hset htmp _ _
  | succ fuel ih =>
    intro t i j h
    simp only [siftDown]
    split
    · split
      · split
        · exact ih _ _ _ (h.hset (h.hget hn _ _) _ _)
        · exact h.hset htmp _ _
      · split
        · exact ih _ _ _ (h.hset (h.hget hn _ _) _ _)
        · exact h.hset htmp _ _
    · exact h.hset htmp _ _

theorem IdxBound.hbuild (hn : 0 < n) (keys : List ℚ) (pl m : ℕ) :
    ∀ (l : ℕ) (t : List ℕ), IdxBound n t → IdxBound n (heapBuild keys pl m t l) := by
  intro l
  induction l with
  | zero => intro t h; exact h
  | succ l ih =>
    intro t h
    simp only [heapBuild]
    exact ih _ (IdxBound.sift hn keys pl m _ (h.hget hn _ _) _ _ _ _ h)

theorem IdxBound.hext (hn : 0 < n) (keys : List ℚ) (pl : ℕ) :
    ∀ (m : ℕ) (t : List ℕ), IdxBound n t → IdxBound n (heapExtract keys pl t m) := by
  intro m
  induction m using Nat.strong_induction_on with
  | _ m ih =>
    match m with
    | 0 => intro t h; exact h
    | 1 => intro t h; exact h
    | m + 2 =>
      intro t h
      simp only [heapExtract]
      exact ih (m + 1) (by omega) _ (IdxBound.sift hn keys pl _ _ (h.hget hn _ _) _ _ _ _
        (h.hset (h.hget hn _ _) _ _))

theorem IdxBound.hseg (h : IdxBound n t) (hn : 0 < n) (keys : List ℚ) (pl pr : ℕ) :
    IdxBound n (heapSeg keys t pl pr) :=
  IdxBound.hext hn keys pl _ _ (IdxBound.hbuild hn keys pl _ _ _ h)

theorem IdxBound.ploop (hn : 0 < n) (keys : List ℚ) (vp : ℚ) :
    ∀ (fuel : ℕ) (t : List ℕ) (pi pj : ℕ), IdxBound n t →
      IdxBound n (partLoop keys vp t pi pj fuel).1 := by
  intro fuel
  induction fuel with
  | zero => intro t pi pj h; exact h
  | succ fuel ih =>
    intro t pi pj h
    simp only [partLoop]
    split
    · exact h
    · exact ih _ _ _ (h.swap hn _ _)

theorem IdxBound.med3 (h : IdxBound n t) (hn : 0 < n) (keys : List ℚ) (i j : ℕ) :
    IdxBound n (med3Swap keys t i j) := by
  unfold med3Swap
  split
  · exact h.swap hn _ _
  · exact h

theorem IdxBound.dpart (h : IdxBound n t) (hn : 0 < n) (keys : List ℚ) (pl pr : ℕ) :
    IdxBound n (doPart keys t pl pr).1 := by
  simp only [doPart]
  exact IdxBound.swap
    (IdxBound.ploop hn keys _ _ _ _ _
      ((((h.med3 hn keys _ _).med3 hn keys _ _).med3 hn keys _ _).swap hn _ _)) hn _ _

theorem IdxBound.qseg (hn : 0 < n) (keys : List ℚ) :
    ∀ (fuel : ℕ) (t : List ℕ) (pl pr : ℕ) (depth : ℤ), IdxBound n t →
      IdxBound n (qsSeg keys t pl pr depth fuel).1 := by
  intro fuel
  induction fuel with
  | zero => intro t pl pr depth h; exact h
  | succ fuel ih =>
    intro t pl pr depth h
    simp only [qsSeg]
    split
    · split
      · exact h.hseg hn keys _ _
      · split
        · exact ih _ _ _ _ (ih _ _ _ _ (h.dpart hn keys _ _))
        · exact ih _ _ _ _ (ih _ _ _ _ (h.dpart hn keys _ _))
    · exact h.iseg keys _ _

theorem npArgsort_lt (keys : List ℚ) (hk : keys ≠ []) :
    ∀ i ∈ npArgsort keys, i < keys.length := by
  have hn : 0 < keys.length := List.length_pos.mpr hk
  have hb : IdxBound keys.length (List.range keys.length) := fun x hx =>
    List.mem_range.mp hx
  exact IdxBound.qseg hn keys _ _ _ _ _ hb

theorem npArgsort_nil : npArgsort [] = [] := by decide

theorem mem_sortBlobsDesc (blobs : List Blob) (b : Blob) (h : b ∈ sortBlobsDesc blobs) :
    b ∈ blobs := by
  unfold sortBlobsDesc at h
  rcases List.mem_map.mp h with ⟨i, hi, rfl⟩
  match blobs with
  | [] => simp [npArgsort_nil] at hi
  | c :: cs =>
    have hlt := npArgsort_lt _ (by simp) i hi
    rw [List.getD_eq_getElem _ _ (by simpa using hlt)]
    exact List.getElem_mem _

/-!
## Lemmas: the scans only reorder or drop records
-/

theorem keptBlobs_sublist (l : List (Blob × Bool)) : (keptBlobs l).Sublist (l.map Prod.fst) :=
  (List.filter_sublist l).map Prod.fst

theorem innerPass_fst (zw rxy : ℚ) (b0 : Blob) (l : List (Blob × Bool)) :
    (innerPass zw rxy b0 l).map Prod.fst = l.map Prod.fst := by
  unfold innerPass
  rw [List.map_map]
  refine List.map_congr_left fun p _ => ?_
  by_cases h : p.2 = true ∧ inWindow zw rxy b0 p.1 <;> simp [h]

theorem outerPass_fst (zw rxy : ℚ) :
    ∀ (n : ℕ) (l : List (Blob × Bool)), l.length ≤ n →
      (outerPass zw rxy n l).map Prod.fst = l.map Prod.fst := by
  intro n
  induction n with
  | zero =>
    intro l hl
    rw [List.length_eq_zero.mp (Nat.le_zero.mp hl)]
    simp [outerPass_nil]
  | succ n ih =>
    intro l hl
    match l with
    | [] => simp [outerPass_nil]
    | p :: rest =>
      rw [outerPass_cons]
      by_cases hk : p.2 = true
      · rw [if_pos hk]
        have hlen : (innerPass zw rxy p.1 rest).length ≤ n := by
          simpa [innerPass] using Nat.le_of_succ_le_succ hl
        simp only [List.map_cons, ih _ hlen, innerPass_fst]
      · rw [if_neg hk]
        simp only [List.map_cons, ih _ (Nat.le_of_succ_le_succ hl)]

theorem bridgeInner_fst (img : Image3) (rxy zw dt : ℚ) (b1 : Blob)
    (l : List (Blob × Bool)) :
    (bridgeInner img rxy zw dt b1 l).1.map Prod.fst = l.map Prod.fst := by
  induction l with
  | nil => rfl
  | cons p rest ih =>
    rw [bridgeInner]
    split
    · split
      · simpa using ih
      · simp
    · simpa using ih

theorem bridgeOuter_nil (img : Image3) (rxy zw dt : ℚ) (fuel : ℕ) :
    bridgeOuter img rxy zw dt fuel [] = [] := by
  cases fuel <;> rfl

theorem bridgeOuter_cons (img : Image3) (rxy zw dt : ℚ) (fuel : ℕ) (p : Blob × Bool)
    (rest : List (Blob × Bool)) :
    bridgeOuter img rxy zw dt (fuel + 1) (p :: rest) =
      if p.2 = true then
        (p.1, (bridgeInner img rxy zw dt p.1 rest).2) ::
          bridgeOuter img rxy zw dt fuel (bridgeInner img rxy zw dt p.1 rest).1
      else p :: bridgeOuter img rxy zw dt fuel rest := rfl

theorem bridgeOuter_fst (img : Image3) (rxy zw dt : ℚ) :
    ∀ (n : ℕ) (l : List (Blob × Bool)), l.length ≤ n →
      (bridgeOuter img rxy zw dt n l).map Prod.fst = l.map Prod.fst := by
  intro n
  induction n with
  | zero =>
    intro l hl
    rw [List.length_eq_zero.mp (Nat.le_zero.mp hl)]
    rw [bridgeOuter_nil]
  | succ n ih =>
    intro l hl
    match l with
    | [] => rw [bridgeOuter_nil]
    | p :: rest =>
      rw [bridgeOuter_cons]
      by_cases hk : p.2 = true
      · rw [if_pos hk]
        have hlen : (bridgeInner img rxy zw dt p.1 rest).1.length ≤ n := by
          rw [bridgeInner_length]
          exact Nat.le_of_succ_le_succ hl
        simp only [List.map_cons, ih _ hlen, bridgeInner_fst]
      · rw [if_neg hk]
        simp only [List.map_cons, ih _ (Nat.le_of_succ_le_succ hl)]

theorem mem_suppress_close (blobs : List Blob) (rxy zw : ℚ) (b : Blob)
    (h : b ∈ suppress_close_blobs_by_intensity blobs rxy zw) : b ∈ blobs := by
  unfold suppress_close_blobs_by_intensity at h
  split at h
  · exact h
  · have h1 := mem_keptBlobs_outerPass zw rxy _ _ (le_refl _) b h
    have h2 : b ∈ ((sortBlobsDesc blobs).map fun c => (c, true)).map Prod.fst := by
      exact List.mem_map.mpr ⟨(b, true), h1, rfl⟩
    exact mem_sortBlobsDesc blobs b (by simpa using h2)

theorem mem_suppress_bridge (blobs : List Blob) (img : Image3) (rxy zw dt : ℚ) (b : Blob)
    (h : b ∈ suppress_blobs_by_bridge_intensity blobs img rxy zw dt) : b ∈ blobs := by
  unfold suppress_blobs_by_bridge_intensity at h
  split at h
  · exact h
  · have h1 := (keptBlobs_sublist _).mem h
    rw [bridgeOuter_fst img rxy zw dt _ _ (le_refl _)] at h1
    exact mem_sortBlobsDesc blobs b (by simpa using h1)

/-!
## Claim theorems
-/

/-- C1: after ProximitySuppressor, no two surviving blobs are simultaneously
within the Z window and within the XY radius of each other. -/
theorem proximity_survivors_pairwise_separated (blobs : List Blob)
    (radius_xy z_window : ℚ) :
    (suppress_close_blobs_by_intensity blobs radius_xy z_window).Pairwise
      (fun a b => ¬(|a.z - b.z| ≤ z_window ∧
        (a.y - b.y) ^ 2 + (a.x - b.x) ^ 2 ≤ radius_xy ^ 2)) := by
  unfold suppress_close_blobs_by_intensity
  split
  next h => subst h; exact List.Pairwise.nil
  next h =>
    refine (pairwise_keptBlobs_outerPass z_window radius_xy _ _ (le_refl _)).imp ?_
    intro a b hni hw
    apply hni
    constructor
    · rw [ratAbs_eq, abs_sub_comm]
      exact hw.1
    · have : (b.y - a.y) ^ 2 + (b.x - a.x) ^ 2 =
        (a.y - b.y) ^ 2 + (a.x - b.x) ^ 2 := by ring
      rw [this]
      exact hw.2

/-- C9: each suppression/filter stage either keeps a record verbatim or drops
it — every record of every stage's output is, field for field, one of the
input records. -/
theorem stages_keep_or_drop (blobs : List Blob) (img : Image3) (m : Mask3)
    (rxy zw dt rt df : ℚ) (rs ei : ℕ) :
    (∀ b ∈ suppress_close_blobs_by_intensity blobs rxy zw, b ∈ blobs) ∧
    (∀ b ∈ suppress_blobs_by_bridge_intensity blobs img rxy zw dt, b ∈ blobs) ∧
    (∀ b ∈ filter_blobs_by_local_intensity img blobs rs rt, b ∈ blobs) ∧
    (∀ b ∈ filter_blobs_by_sharpness blobs img df, b ∈ blobs) ∧
    (∀ b ∈ (filter_blobs_outside_eroded_mask blobs m ei).1, b ∈ blobs) := by
  refine ⟨fun b hb => mem_suppress_close blobs rxy zw b hb,
    fun b hb => mem_suppress_bridge blobs img rxy zw dt b hb,
    fun b hb => List.mem_of_mem_filter hb,
    fun b hb => List.mem_of_mem_filter hb,
    fun b hb => List.mem_of_mem_filter hb⟩

/-- Witness for C9 at a concrete input: `bA` survives the proximity stage on
`[bA, bB]` (they are 30 px apart), and the theorem places it among the inputs. -/
theorem stages_keep_or_drop_witness : bA ∈ [bA, bB] :=
  (stages_keep_or_drop [bA, bB] img5 ⟨1, 1, 50, fun _ _ _ => true⟩
    10 2 (1/2) 2 (7/5) 10 10).1 bA (by decide)

/-- C4: the bridge inner loop implements the first-disqualifying-pair
semantics.  For the outer record `b1` and any tail of later records: every
later record that is still kept, inside the Z-window and XY-radius gates and
with `dip_ratio > dip_threshold` while strictly weaker than `b1`
(`intensity1 > intensity2`) is marked excluded and the scan continues; at
the first such record that is not strictly weaker the loop instead marks
`b1` itself excluded and breaks, leaving all later records untouched, so
only that first disqualifying pair is acted on. -/
theorem bridge_inner_first_disqualifying_pair (img : Image3)
    (radius_xy z_window dip_threshold : ℚ) (b1 : Blob) (l : List (Blob × Bool)) :
    bridgeInner img radius_xy z_window dip_threshold b1 l =
      bridgeInnerSpec img radius_xy z_window dip_threshold b1 l := by
  induction l with
  | nil => rfl
  | cons p rest ih =>
    by_cases hk : bridgeKills img radius_xy z_window dip_threshold b1 p
    · rw [bridgeInner, if_pos hk.1, if_neg hk.2]
      simp [bridgeInnerSpec, List.takeWhile_cons, List.dropWhile_cons, hk]
    · by_cases hh : bridgeHit img radius_xy z_window dip_threshold b1 p
      · have hlt : p.1.intensity < b1.intensity := by
          by_contra hc
          exact hk ⟨hh, hc⟩
        rw [bridgeInner, if_pos hh, if_pos hlt, ih]
        simp [bridgeInnerSpec, List.takeWhile_cons, List.dropWhile_cons, hk,
          bridgeMark, hh]
      · have hk' : ¬ bridgeKills img radius_xy z_window dip_threshold b1 p :=
          fun hc => hh hc.1
        rw [bridgeInner, if_neg hh, ih]
        simp [bridgeInnerSpec, List.takeWhile_cons, List.dropWhile_cons, hk',
          bridgeMark, hh]

section ConcreteEvaluations

/-!
The remaining claim-level facts are evaluated on concrete inputs inside the
kernel; Batteries marks the rational arithmetic operations `@[irreducible]`,
which only restricts elaborator-side unfolding, so reducibility is restored
locally for these evaluations.
-/

attribute [local semireducible] Rat.add Rat.sub Rat.mul Rat.inv

set_option maxRecDepth 40000

/-- C5 counterexample: with `radius_xy = 20` the bridge suppressor's own
`dist_sq > radius_xy**2` gate skips the pair of blobs 30 px apart (dip ratio
190/195 ≈ 0.974, `dip_threshold = 0.5`, `z_window = 4`), so the weaker blob
`bB` is NOT dropped: both blobs survive unchanged. -/
theorem bridge_gate_skips_30px_pair_at_radius20 :
    suppress_blobs_by_bridge_intensity [bA, bB] img5 20 4 (1/2) = [bA, bB] ∧
      bB ∈ suppress_blobs_by_bridge_intensity [bA, bB] img5 20 4 (1/2) := by
  constructor
  · decide
  · decide

/-- C5 amended: the same two blobs 30 px apart with the same line profile
(minimum sampled intensity 190, average peak 195, `dip_ratio = 38/39 ≈ 0.974
> dip_threshold = 0.5`) are compared once `radius_xy` admits the pair
(`radius_xy = 30`), and BridgeSuppressor then drops the weaker blob `bB`. -/
theorem bridge_drops_weaker_at_radius30 :
    dipVal img5 bA bB = 38/39 ∧
      suppress_blobs_by_bridge_intensity [bA, bB] img5 30 4 (1/2) = [bA] := by
  constructor
  · decide
  · decide

/-- C2 counterexample: on an all-zero volume in percentile mode the threshold
resolution of `detect_blobs` does not fail — there is no `DegenerateImage`
error anywhere in the code — it silently produces the non-finite float
`0.0 / 0.0 = NaN` (numpy emits only a RuntimeWarning). -/
theorem zero_max_threshold_is_silent_nan :
    resolve_threshold vol0 "percentile" (199/2) = ThreshOutcome.nan ∧
      resolve_threshold vol0 "percentile" (199/2) ≠ ThreshOutcome.valueError := by
  constructor
  · decide
  · decide

end ConcreteEvaluations

/-- C2 amended: whenever the volume's global maximum is zero, the threshold
resolution silently yields a non-finite threshold (NaN when the numerator is
also zero, ±Inf otherwise) in both percentile and absolute mode; the only
failure the phase can raise is the `ValueError` for an unrecognized mode. -/
theorem zero_max_yields_nonfinite_threshold (image : Volume) (tv : ℚ)
    (hmax : npMax image = 0) :
    (resolve_threshold image "percentile" tv = ThreshOutcome.nan ∨
      resolve_threshold image "percentile" tv = ThreshOutcome.infinite) ∧
    (resolve_threshold image "absolute" tv = ThreshOutcome.nan ∨
      resolve_threshold image "absolute" tv = ThreshOutcome.infinite) := by
  unfold resolve_threshold floatDiv
  rw [if_pos rfl]
  constructor
  · rw [if_pos hmax]
    split
    · exact Or.inl rfl
    · exact Or.inr rfl
  · rw [if_neg (by decide), if_pos rfl, if_pos hmax]
    split
    · exact Or.inl rfl
    · exact Or.inr rfl

/-- Witness for C2 (amended) on the all-zero volume with `tv = 55`. -/
theorem zero_max_yields_nonfinite_threshold_witness :
    npMax vol0 = 0 ∧
      (resolve_threshold vol0 "percentile" 55 = ThreshOutcome.nan ∨
        resolve_threshold vol0 "percentile" 55 = ThreshOutcome.infinite) :=
  ⟨by decide, (zero_max_yields_nonfinite_threshold vol0 55 (by decide)).1⟩

/-- `getD` through a `map`, for indices in range. -/
theorem getD_map_of_lt {α β : Type} (f : α → β) (l : List α) (i : ℕ)
    (h : i < l.length) (d : β) (d' : α) : (l.map f).getD i d = f (l.getD i d') := by
  rw [List.getD_eq_getElem _ _ (by simpa using h), List.getD_eq_getElem _ _ h,
    List.getElem_map]

/-- C6: LocalContrastFilter drops any blob whose square XY region of
half-width `region_size` around the rounded center would leave the XY
bounds (a center exactly `region_size` from an edge is in bounds, one unit
closer is not), and — for a valid slice index — keeps an in-bounds input
blob iff its intensity exceeds `ratio_threshold` times the regional mean. -/
theorem local_contrast_keep_iff (img : Image3) (blobs : List Blob)
    (region_size : ℕ) (ratio_threshold : ℚ) (b : Blob) :
    (¬((region_size : ℤ) ≤ npRound b.y ∧ npRound b.y < (img.height : ℤ) - region_size ∧
        (region_size : ℤ) ≤ npRound b.x ∧ npRound b.x < (img.width : ℤ) - region_size) →
      b ∉ filter_blobs_by_local_intensity img blobs region_size ratio_threshold) ∧
    (0 ≤ npRound b.z ∧ npRound b.z < (img.depth : ℤ) →
      (b ∈ filter_blobs_by_local_intensity img blobs region_size ratio_threshold ↔
        b ∈ blobs ∧
          ((region_size : ℤ) ≤ npRound b.y ∧ npRound b.y < (img.height : ℤ) - region_size ∧
            (region_size : ℤ) ≤ npRound b.x ∧ npRound b.x < (img.width : ℤ) - region_size) ∧
          ratio_threshold *
              localMean img (npRound b.z) (npRound b.y) (npRound b.x) region_size <
            b.intensity)) := by
  unfold filter_blobs_by_local_intensity
  simp only [List.mem_filter, decide_eq_true_eq]
  constructor
  · intro hny hc
    exact hny ⟨hc.2.1, hc.2.2.1, hc.2.2.2.1, hc.2.2.2.2.1⟩
  · intro hz
    constructor
    · rintro ⟨hm, h1, h2, h3, h4, _, _, h7⟩
      exact ⟨hm, ⟨h1, h2, h3, h4⟩, h7⟩
    · rintro ⟨hm, ⟨h1, h2, h3, h4⟩, h7⟩
      exact ⟨hm, h1, h2, h3, h4, hz.1, hz.2, h7⟩

/-- C7: MaskBoundaryFilter keeps a blob iff its rounded voxel is inside the
mask array bounds on every axis and is not in the ring
`Mask AND NOT erode(Mask, N)`; in particular voxels inside the `N`-fold
erosion are kept, ring voxels are dropped, out-of-bounds voxels are
dropped; and the stage returns the eroded mask as its second component. -/
theorem mask_filter_keep_iff (blobs : List Blob) (m : Mask3) (N : ℕ) (_hN : 0 < N)
    (b : Blob) :
    (b ∈ (filter_blobs_outside_eroded_mask blobs m N).1 ↔
      b ∈ blobs ∧
        inBounds3 m.depth m.height m.width (npRound b.z) (npRound b.y) (npRound b.x) ∧
        ¬(m.val (npRound b.z) (npRound b.y) (npRound b.x) = true ∧
          ¬((erodeIter m N).val (npRound b.z) (npRound b.y) (npRound b.x) = true))) ∧
    (b ∈ blobs →
      inBounds3 m.depth m.height m.width (npRound b.z) (npRound b.y) (npRound b.x) →
      (erodeIter m N).val (npRound b.z) (npRound b.y) (npRound b.x) = true →
      b ∈ (filter_blobs_outside_eroded_mask blobs m N).1) ∧
    (m.val (npRound b.z) (npRound b.y) (npRound b.x) = true →
      (erodeIter m N).val (npRound b.z) (npRound b.y) (npRound b.x) = false →
      b ∉ (filter_blobs_outside_eroded_mask blobs m N).1) ∧
    (¬ inBounds3 m.depth m.height m.width (npRound b.z) (npRound b.y) (npRound b.x) →
      b ∉ (filter_blobs_outside_eroded_mask blobs m N).1) ∧
    (filter_blobs_outside_eroded_mask blobs m N).2 = erodeIter m N := by
  have hmain : b ∈ (filter_blobs_outside_eroded_mask blobs m N).1 ↔
      b ∈ blobs ∧
        inBounds3 m.depth m.height m.width (npRound b.z) (npRound b.y) (npRound b.x) ∧
        ¬(m.val (npRound b.z) (npRound b.y) (npRound b.x) = true ∧
          ¬((erodeIter m N).val (npRound b.z) (npRound b.y) (npRound b.x) = true)) := by
    unfold filter_blobs_outside_eroded_mask
    simp only [List.mem_filter, Bool.and_eq_true, decide_eq_true_eq,
      Bool.not_eq_true', Bool.and_eq_false_iff, Bool.not_eq_false']
    constructor
    · rintro ⟨hm, hb, hr⟩
      refine ⟨hm, hb, ?_⟩
      rintro ⟨h1, h2⟩
      rcases hr with h | h
      · exact absurd h1 (by simp [h])
      · exact h2 (by simpa using h)
    · rintro ⟨hm, hb, hr⟩
      refine ⟨hm, hb, ?_⟩
      by_cases h1 : m.val (npRound b.z) (npRound b.y) (npRound b.x) = true
      · right
        by_contra h2
        exact hr ⟨h1, by simpa using h2⟩
      · left
        simpa using h1
  refine ⟨hmain, ?_, ?_, ?_, rfl⟩
  · intro hb hin he
    exact hmain.mpr ⟨hb, hin, fun hc => hc.2 he⟩
  · intro h1 h2 hc
    rcases hmain.mp hc with ⟨_, _, hr⟩
    exact hr ⟨h1, by simp [h2]⟩
  · intro hin hc
    exact hin (hmain.mp hc).2.1

/-- C10: `detect_blob_intensities` drops nothing — it emits exactly one
record per input blob, preserving the `(z, y, x, sigma)` fields, with the
NaN sentinel (modelled as `none`) exactly when the rounded center has no
full in-bounds 3×3 XY patch or the slice index is invalid, and the 3×3 XY
patch mean otherwise. -/
theorem detect_intensities_one_per_blob (img : Image3) (blobs : List RawBlob) :
    (detect_blob_intensities img blobs).length = blobs.length ∧
    ∀ i, i < blobs.length →
      ((detect_blob_intensities img blobs).getD i default).1 = blobs.getD i default ∧
      (((detect_blob_intensities img blobs).getD i default).2 = none ↔
        ¬(1 ≤ npRound (blobs.getD i default).y ∧
          npRound (blobs.getD i default).y < (img.height : ℤ) - 1 ∧
          1 ≤ npRound (blobs.getD i default).x ∧
          npRound (blobs.getD i default).x < (img.width : ℤ) - 1 ∧
          0 ≤ npRound (blobs.getD i default).z ∧
          npRound (blobs.getD i default).z < (img.depth : ℤ))) ∧
      ((1 ≤ npRound (blobs.getD i default).y ∧
          npRound (blobs.getD i default).y < (img.height : ℤ) - 1 ∧
          1 ≤ npRound (blobs.getD i default).x ∧
          npRound (blobs.getD i default).x < (img.width : ℤ) - 1 ∧
          0 ≤ npRound (blobs.getD i default).z ∧
          npRound (blobs.getD i default).z < (img.depth : ℤ)) →
        ((detect_blob_intensities img blobs).getD i default).2 =
          some (patchMean3 img (npRound (blobs.getD i default).z)
            (npRound (blobs.getD i default).y) (npRound (blobs.getD i default).x))) := by
  have hzip : ∀ l : List RawBlob, ∀ f : RawBlob → Option ℚ,
      l.zip (l.map f) = l.map fun b => (b, f b) := by
    intro l f
    induction l with
    | nil => rfl
    | cons a l ih => simp [List.zip_cons_cons, ih]
  unfold detect_blob_intensities
  rw [hzip]
  constructor
  · simp
  · intro i hi
    rw [getD_map_of_lt _ _ _ hi _ default]
    set c := blobs.getD i default with hc
    refine ⟨rfl, ?_, ?_⟩
    · by_cases hcond : 1 ≤ npRound c.y ∧ npRound c.y < (img.height : ℤ) - 1 ∧
        1 ≤ npRound c.x ∧ npRound c.x < (img.width : ℤ) - 1 ∧
        0 ≤ npRound c.z ∧ npRound c.z < (img.depth : ℤ)
      · simp [hcond]
      · simp [hcond]
    · intro hcond
      simp [hcond]

section WitnessEvaluations

attribute [local semireducible] Rat.add Rat.sub Rat.mul Rat.inv

set_option maxRecDepth 40000

/-- Witness for C6: on a constant-1 volume of height 21 and width 30 with
`region_size = 10` and `ratio_threshold = 2`, the blob centered exactly
10 px from the XY edge is kept (its intensity 5 exceeds 2 × mean 1), while
the identical blob one pixel closer to the edge is dropped by the boundary
rule alone. -/
theorem local_contrast_keep_iff_witness :
    (⟨0, 10, 15, 1, 5⟩ : Blob) ∈ filter_blobs_by_local_intensity
      ⟨1, 21, 30, fun _ _ _ => 1⟩ [⟨0, 10, 15, 1, 5⟩, ⟨0, 9, 15, 1, 5⟩] 10 2 ∧
    (⟨0, 9, 15, 1, 5⟩ : Blob) ∉ filter_blobs_by_local_intensity
      ⟨1, 21, 30, fun _ _ _ => 1⟩ [⟨0, 10, 15, 1, 5⟩, ⟨0, 9, 15, 1, 5⟩] 10 2 := by
  constructor
  · exact ((local_contrast_keep_iff ⟨1, 21, 30, fun _ _ _ => 1⟩
      [⟨0, 10, 15, 1, 5⟩, ⟨0, 9, 15, 1, 5⟩] 10 2 ⟨0, 10, 15, 1, 5⟩).2
      (by decide)).mpr ⟨by decide, by decide, by decide⟩
  · exact (local_contrast_keep_iff ⟨1, 21, 30, fun _ _ _ => 1⟩
      [⟨0, 10, 15, 1, 5⟩, ⟨0, 9, 15, 1, 5⟩] 10 2 ⟨0, 9, 15, 1, 5⟩).1 (by decide)

/-- Witness for C7 on a full 3×5×5 mask with one erosion iteration: the
center voxel blob is kept, a corner (ring) blob is dropped, an out-of-bounds
blob is dropped. -/
theorem mask_filter_keep_iff_witness :
    (⟨1, 2, 2, 1, 9⟩ : Blob) ∈ (filter_blobs_outside_eroded_mask
      [⟨1, 2, 2, 1, 9⟩, ⟨0, 0, 0, 1, 9⟩, ⟨5, 5, 5, 1, 9⟩]
      ⟨3, 5, 5, fun _ _ _ => true⟩ 1).1 ∧
    (⟨0, 0, 0, 1, 9⟩ : Blob) ∉ (filter_blobs_outside_eroded_mask
      [⟨1, 2, 2, 1, 9⟩, ⟨0, 0, 0, 1, 9⟩, ⟨5, 5, 5, 1, 9⟩]
      ⟨3, 5, 5, fun _ _ _ => true⟩ 1).1 ∧
    (⟨5, 5, 5, 1, 9⟩ : Blob) ∉ (filter_blobs_outside_eroded_mask
      [⟨1, 2, 2, 1, 9⟩, ⟨0, 0, 0, 1, 9⟩, ⟨5, 5, 5, 1, 9⟩]
      ⟨3, 5, 5, fun _ _ _ => true⟩ 1).1 := by
  refine ⟨?_, ?_, ?_⟩
  · exact (mask_filter_keep_iff _ ⟨3, 5, 5, fun _ _ _ => true⟩ 1 (by decide)
      ⟨1, 2, 2, 1, 9⟩).2.1 (by decide) (by decide) (by decide)
  · exact (mask_filter_keep_iff _ ⟨3, 5, 5, fun _ _ _ => true⟩ 1 (by decide)
      ⟨0, 0, 0, 1, 9⟩).2.2.1 (by decide) (by decide)
  · exact (mask_filter_keep_iff _ ⟨3, 5, 5, fun _ _ _ => true⟩ 1 (by decide)
      ⟨5, 5, 5, 1, 9⟩).2.2.2.1 (by decide)

/-- Witness for C10 on a 3×5×5 volume and a single in-bounds blob. -/
theorem detect_intensities_one_per_blob_witness :
    ((detect_blob_intensities ⟨3, 5, 5, fun _ _ _ => 7⟩ [⟨1, 2, 2, 1⟩]).getD 0
      default).1 = ([⟨1, 2, 2, 1⟩] : List RawBlob).getD 0 default :=
  ((detect_intensities_one_per_blob ⟨3, 5, 5, fun _ _ _ => 7⟩ [⟨1, 2, 2, 1⟩]).2 0
    (by decide)).1

end WitnessEvaluations

/-!
## Lemmas: the insertion-sort regime (lists of at most 16 records)

For inputs of at most 16 keys `npArgsort` is exactly the stable insertion
sort, which is ascending by key and preserves the relative order of equal
keys (stated as preservation of every fixed-key filter).
-/

theorem pairwise_insIdx (keys : List ℚ) (i : ℕ) (acc : List ℕ)
    (h : acc.Pairwise fun a b => keys.getD a 0 ≤ keys.getD b 0) :
    (insIdx keys acc i).Pairwise fun a b => keys.getD a 0 ≤ keys.getD b 0 := by
  induction acc with
  | nil => simp [insIdx]
  | cons j js ih =>
    rw [List.pairwise_cons] at h
    rw [insIdx]
    split
    next hlt =>
      refine List.Pairwise.cons ?_ (List.Pairwise.cons h.1 h.2)
      intro a ha
      rcases List.mem_cons.mp ha with rfl | ha
      · exact le_of_lt hlt
      · exact le_trans (le_of_lt hlt) (h.1 a ha)
    next hge =>
      refine List.Pairwise.cons ?_ (ih h.2)
      intro a ha
      rcases mem_insIdx keys js i a ha with rfl | ha
      · exact le_of_not_lt hge
      · exact h.1 a ha

theorem pairwise_foldl_insIdx (keys : List ℚ) :
    ∀ (l acc : List ℕ), (acc.Pairwise fun a b => keys.getD a 0 ≤ keys.getD b 0) →
      (List.foldl (insIdx keys) acc l).Pairwise
        fun a b => keys.getD a 0 ≤ keys.getD b 0 := by
  intro l
  induction l with
  | nil => intro acc h; exact h
  | cons i is ih => intro acc h; exact ih _ (pairwise_insIdx keys i acc h)

theorem pairwise_insSortIdx (keys : List ℚ) (l : List ℕ) :
    (insSortIdx keys l).Pairwise fun a b => keys.getD a 0 ≤ keys.getD b 0 :=
  pairwise_foldl_insIdx keys l [] (by simp)

theorem filter_insIdx (keys : List ℚ) (c : ℚ) (i : ℕ) (acc : List ℕ)
    (h : acc.Pairwise fun a b => keys.getD a 0 ≤ keys.getD b 0) :
    (insIdx keys acc i).filter (fun a => decide (keys.getD a 0 = c)) =
      if keys.getD i 0 = c then
        acc.filter (fun a => decide (keys.getD a 0 = c)) ++ [i]
      else acc.filter (fun a => decide (keys.getD a 0 = c)) := by
  induction acc with
  | nil =>
    rw [insIdx]
    by_cases hi : keys.getD i 0 = c
    · rw [if_pos hi, List.filter_cons, decide_eq_true hi, if_pos rfl, List.filter_nil,
        List.nil_append]
    · rw [if_neg hi, List.filter_cons, decide_eq_false hi, if_neg (by decide),
        List.filter_nil]
  | cons j js ih =>
    rw [List.pairwise_cons] at h
    rw [insIdx]
    split
    next hlt =>
      by_cases hi : keys.getD i 0 = c
      · have hnil : (j :: js).filter (fun a => decide (keys.getD a 0 = c)) = [] := by
          rw [List.filter_eq_nil_iff]
          intro a ha
          have hjc : keys.getD j 0 ≤ keys.getD a 0 := by
            rcases List.mem_cons.mp ha with rfl | ha
            · exact le_refl _
            · exact h.1 a ha
          have hlt2 : c < keys.getD a 0 := lt_of_lt_of_le (hi ▸ hlt) hjc
          simp only [decide_eq_true_eq]
          exact fun hc => absurd (hc ▸ hlt2) (lt_irrefl c)
        rw [if_pos hi, hnil, List.filter_cons, decide_eq_true hi, if_pos rfl, hnil,
          List.nil_append]
      · rw [if_neg hi, List.filter_cons, decide_eq_false hi, if_neg (by decide)]
    next hge =>
      rw [List.filter_cons, List.filter_cons, ih h.2]
      by_cases hi : keys.getD i 0 = c
      · rw [if_pos hi, if_pos hi]
        by_cases hj : keys.getD j 0 = c
        · rw [decide_eq_true hj, if_pos rfl, if_pos rfl, List.cons_append]
        · rw [decide_eq_false hj, if_neg (by decide), if_neg (by decide)]
      · rw [if_neg hi, if_neg hi]

theorem filter_foldl_insIdx (keys : List ℚ) (c : ℚ) :
    ∀ (l acc : List ℕ), (acc.Pairwise fun a b => keys.getD a 0 ≤ keys.getD b 0) →
      (List.foldl (insIdx keys) acc l).filter (fun a => decide (keys.getD a 0 = c)) =
        acc.filter (fun a => decide (keys.getD a 0 = c)) ++
          l.filter (fun a => decide (keys.getD a 0 = c)) := by
  intro l
  induction l with
  | nil => intro acc h; simp
  | cons i is ih =>
    intro acc h
    have step := ih (insIdx keys acc i) (pairwise_insIdx keys i acc h)
    rw [List.foldl_cons, step, filter_insIdx keys c i acc h, List.filter_cons]
    by_cases hi : keys.getD i 0 = c
    · rw [if_pos hi, decide_eq_true hi, if_pos rfl, List.append_assoc,
        List.singleton_append]
    · rw [if_neg hi, decide_eq_false hi, if_neg (by decide)]

theorem insSortIdx_filter (keys : List ℚ) (c : ℚ) (l : List ℕ) :
    (insSortIdx keys l).filter (fun a => decide (keys.getD a 0 = c)) =
      l.filter (fun a => decide (keys.getD a 0 = c)) := by
  unfold insSortIdx
  simpa using filter_foldl_insIdx keys c l [] (by simp)

theorem insIdx_append (keys : List ℚ) (i : ℕ) (acc : List ℕ)
    (h : ∀ a ∈ acc, ¬(keys.getD i 0 < keys.getD a 0)) :
    insIdx keys acc i = acc ++ [i] := by
  induction acc with
  | nil => rfl
  | cons j js ih =>
    rw [insIdx, if_neg (h j (List.mem_cons_self _ _))]
    rw [ih fun a ha => h a (List.mem_cons_of_mem _ ha)]
    rfl

theorem foldl_insIdx_sorted_id (keys : List ℚ) :
    ∀ (l acc : List ℕ), (acc.Pairwise fun a b => keys.getD a 0 ≤ keys.getD b 0) →
      (l.Pairwise fun a b => keys.getD a 0 ≤ keys.getD b 0) →
      (∀ a ∈ acc, ∀ b ∈ l, keys.getD a 0 ≤ keys.getD b 0) →
      List.foldl (insIdx keys) acc l = acc ++ l := by
  intro l
  induction l with
  | nil => intro acc _ _ _; simp
  | cons i is ih =>
    intro acc hacc hl hcross
    rw [List.pairwise_cons] at hl
    have hins : insIdx keys acc i = acc ++ [i] :=
      insIdx_append keys i acc fun a ha =>
        not_lt_of_le (hcross a ha i (List.mem_cons_self _ _))
    have hsort2 : (acc ++ [i]).Pairwise fun a b => keys.getD a 0 ≤ keys.getD b 0 := by
      rw [List.pairwise_append]
      refine ⟨hacc, by simp, ?_⟩
      intro a ha b hb
      rw [List.mem_singleton] at hb
      rw [hb]
      exact hcross a ha i (List.mem_cons_self _ _)
    have hcross2 : ∀ a ∈ acc ++ [i], ∀ b ∈ is, keys.getD a 0 ≤ keys.getD b 0 := by
      intro a ha b hb
      rcases List.mem_append.mp ha with ha | ha
      · exact hcross a ha b (List.mem_cons_of_mem _ hb)
      · rw [List.mem_singleton] at ha
        subst ha
        exact hl.1 b hb
    rw [List.foldl_cons, hins, ih (acc ++ [i]) hsort2 hl.2 hcross2]
    simp

theorem insSortIdx_sorted_id (keys : List ℚ) (l : List ℕ)
    (h : l.Pairwise fun a b => keys.getD a 0 ≤ keys.getD b 0) :
    insSortIdx keys l = l := by
  unfold insSortIdx
  simpa using foldl_insIdx_sorted_id keys l [] (by simp) h (by simp)

theorem insIdx_perm (keys : List ℚ) (i : ℕ) (acc : List ℕ) :
    (insIdx keys acc i).Perm (i :: acc) := by
  induction acc with
  | nil => rfl
  | cons j js ih =>
    rw [insIdx]
    split
    · rfl
    · exact (ih.cons j).trans (List.Perm.swap i j js)

theorem foldl_insIdx_perm (keys : List ℚ) :
    ∀ (l acc : List ℕ), (List.foldl (insIdx keys) acc l).Perm (acc ++ l) := by
  intro l
  induction l with
  | nil => intro acc; simp
  | cons i is ih =>
    intro acc
    refine (ih (insIdx keys acc i)).trans ?_
    refine (List.Perm.append_right is (insIdx_perm keys i acc)).trans ?_
    exact List.perm_middle.symm

theorem insSortIdx_perm (keys : List ℚ) (l : List ℕ) : (insSortIdx keys l).Perm l := by
  unfold insSortIdx
  simpa using foldl_insIdx_perm keys l []

theorem npArgsort_small (keys : List ℚ) (h : keys.length ≤ 16) :
    npArgsort keys = insSortIdx keys (List.range keys.length) := by
  unfold npArgsort
  have hfuel : keys.length + 2 = (keys.length + 1) + 1 := rfl
  rw [hfuel, qsSeg]
  rw [if_neg (by omega)]
  unfold insSeg
  match keys, h with
  | [], _ => rfl
  | k :: ks, h =>
    have hlen : (k :: ks).length - 1 + 1 = (k :: ks).length := by simp
    simp only [List.take_zero, List.nil_append, List.drop_zero, Nat.sub_zero, hlen]
    rw [List.take_of_length_le (by simp), List.drop_eq_nil_of_le (by simp),
      List.append_nil]

theorem range_map_getD {α : Type} (l : List α) (d : α) :
    (List.range l.length).map (fun i => l.getD i d) = l := by
  apply List.ext_getElem
  · simp
  · intro i h1 h2
    simp only [List.getElem_map, List.getElem_range]
    rw [List.getD_eq_getElem _ _ h2]

theorem getD_negKeys (blobs : List Blob) (i : ℕ) (h : i < blobs.length) :
    (blobs.map fun b => -b.intensity).getD i 0 = -(blobs.getD i default).intensity :=
  getD_map_of_lt _ blobs i h 0 default

theorem sortBlobsDesc_small (blobs : List Blob) (h : blobs.length ≤ 16) :
    sortBlobsDesc blobs =
      (insSortIdx (blobs.map fun b => -b.intensity) (List.range blobs.length)).map
        fun i => blobs.getD i default := by
  unfold sortBlobsDesc
  rw [npArgsort_small _ (by simpa using h), List.length_map]

theorem sortBlobsDesc_small_sorted (blobs : List Blob) (h : blobs.length ≤ 16) :
    (sortBlobsDesc blobs).Pairwise fun a b => b.intensity ≤ a.intensity := by
  rw [sortBlobsDesc_small blobs h, List.pairwise_map]
  have hp := pairwise_insSortIdx (blobs.map fun b => -b.intensity)
    (List.range blobs.length)
  refine hp.imp_of_mem ?_
  intro a b ha hb hab
  have ha' : a < blobs.length :=
    List.mem_range.mp ((insSortIdx_perm _ _).mem_iff.mp ha)
  have hb' : b < blobs.length :=
    List.mem_range.mp ((insSortIdx_perm _ _).mem_iff.mp hb)
  rw [getD_negKeys _ _ ha', getD_negKeys _ _ hb'] at hab
  exact neg_le_neg_iff.mp hab

theorem sortBlobsDesc_small_stable (blobs : List Blob) (h : blobs.length ≤ 16) (q : ℚ) :
    (sortBlobsDesc blobs).filter (fun b => decide (b.intensity = q)) =
      blobs.filter fun b => decide (b.intensity = q) := by
  rw [sortBlobsDesc_small blobs h, List.filter_map]
  have hcongr : ∀ l' : List ℕ, (∀ i ∈ l', i < blobs.length) →
      l'.filter ((fun b => decide (b.intensity = q)) ∘ fun i => blobs.getD i default) =
        l'.filter fun a =>
          decide ((blobs.map fun b => -b.intensity).getD a 0 = -q) := by
    intro l' hl'
    refine List.filter_congr ?_
    intro i hi
    simp only [Function.comp_apply]
    rw [getD_negKeys _ _ (hl' i hi)]
    refine decide_eq_decide.mpr ?_
    exact ⟨fun hc => by rw [hc], fun hc => neg_inj.mp hc⟩
  rw [hcongr _ fun i hi => List.mem_range.mp ((insSortIdx_perm _ _).mem_iff.mp hi)]
  rw [insSortIdx_filter]
  rw [← hcongr _ fun i hi => List.mem_range.mp hi]
  rw [← List.filter_map, range_map_getD]

theorem sortBlobsDesc_small_perm (blobs : List Blob) (h : blobs.length ≤ 16) :
    (sortBlobsDesc blobs).Perm blobs := by
  rw [sortBlobsDesc_small blobs h]
  refine (List.Perm.map _ (insSortIdx_perm _ _)).trans ?_
  rw [range_map_getD]

theorem sortBlobsDesc_sorted_id (blobs : List Blob) (h16 : blobs.length ≤ 16)
    (hs : blobs.Pairwise fun a b => b.intensity ≤ a.intensity) :
    sortBlobsDesc blobs = blobs := by
  rw [sortBlobsDesc_small blobs h16]
  have hrange : (List.range blobs.length).Pairwise fun a b =>
      (blobs.map fun c => -c.intensity).getD a 0 ≤
        (blobs.map fun c => -c.intensity).getD b 0 := by
    refine (List.pairwise_lt_range blobs.length).imp_of_mem ?_
    intro a b ha hb hab
    have ha' := List.mem_range.mp ha
    have hb' := List.mem_range.mp hb
    rw [getD_negKeys _ _ ha', getD_negKeys _ _ hb']
    have hgl := List.pairwise_iff_getElem.mp hs a b ha' hb' hab
    have : (blobs.getD b default).intensity ≤ (blobs.getD a default).intensity := by
      rw [List.getD_eq_getElem _ _ ha', List.getD_eq_getElem _ _ hb']
      exact hgl
    exact neg_le_neg this
  rw [insSortIdx_sorted_id _ _ hrange, range_map_getD]

theorem outerPass_no_gate (zw rxy : ℚ) :
    ∀ l : List Blob, (l.Pairwise fun a b => ¬ inWindow zw rxy a b) →
      outerPass zw rxy (l.map fun b => (b, true)).length (l.map fun b => (b, true)) =
        l.map fun b => (b, true) := by
  intro l
  induction l with
  | nil => intro _; rfl
  | cons b rest ih =>
    intro hp
    rw [List.pairwise_cons] at hp
    simp only [List.map_cons, List.length_cons]
    rw [outerPass_cons, if_pos rfl]
    have hinner : innerPass zw rxy b (rest.map fun c => (c, true)) =
        rest.map fun c => (c, true) := by
      unfold innerPass
      rw [List.map_map]
      refine List.map_congr_left ?_
      intro c hc
      simp only [Function.comp_apply]
      rw [if_neg]
      intro hcond
      exact hp.1 c hc hcond.2
    rw [hinner]
    have hlen : (rest.map fun c => (c, true)).length = rest.length := by simp
    rw [hlen] at ih ⊢
    rw [ih hp.2]

theorem keptBlobs_map_true (l : List Blob) : keptBlobs (l.map fun b => (b, true)) = l := by
  induction l with
  | nil => rfl
  | cons b rest ih =>
    rw [List.map_cons, keptBlobs_cons, if_pos rfl, ih]

theorem suppress_sublist (blobs : List Blob) (rxy zw : ℚ) :
    (suppress_close_blobs_by_intensity blobs rxy zw).Sublist (sortBlobsDesc blobs) := by
  unfold suppress_close_blobs_by_intensity
  split
  next h =>
    rw [h]
    exact List.nil_sublist _
  next h =>
    have heq : (outerPass zw rxy ((sortBlobsDesc blobs).map fun b => (b, true)).length
        ((sortBlobsDesc blobs).map fun b => (b, true))).map Prod.fst =
        sortBlobsDesc blobs := by
      rw [outerPass_fst zw rxy _ _ (le_refl _), List.map_map]
      have : (Prod.fst ∘ fun b : Blob => (b, true)) = id := rfl
      rw [this, List.map_id]
    have hsub := keptBlobs_sublist (outerPass zw rxy
      ((sortBlobsDesc blobs).map fun b => (b, true)).length
      ((sortBlobsDesc blobs).map fun b => (b, true)))
    rw [heq] at hsub
    exact hsub

theorem suppress_close_fixed (l : List Blob) (rxy zw : ℚ) (h16 : l.length ≤ 16)
    (hsorted : l.Pairwise fun a b => b.intensity ≤ a.intensity)
    (hgate : l.Pairwise fun a b => ¬ inWindow zw rxy a b) :
    suppress_close_blobs_by_intensity l rxy zw = l := by
  by_cases hl : l = []
  · rw [hl]
    rfl
  · unfold suppress_close_blobs_by_intensity
    rw [if_neg hl]
    have hs : sortBlobsDesc l = l := sortBlobsDesc_sorted_id l h16 hsorted
    simp only [hs]
    rw [outerPass_no_gate zw rxy l hgate]
    exact keptBlobs_map_true l

section SortCounterexamples

attribute [local semireducible] Rat.add Rat.sub Rat.mul Rat.inv

set_option maxRecDepth 40000

/-- C3 counterexample: on seventeen records of equal intensity, numpy's
default quicksort is past its 16-element insertion-sort cutoff; its Hoare
partition exchanges equal keys, so the record at input position 1 and the
record at input position 14 (equal intensities, distinguished by `y`) come
out in the opposite relative order in the processing-priority list, which is
also the suppressor's output (nothing is suppressed here). -/
theorem sort_not_stable_on_equal_intensities :
    ex17.getD 1 default = ⟨0, 100, 0, 2, 5⟩ ∧
    ex17.getD 14 default = ⟨0, 1400, 0, 2, 5⟩ ∧
    (⟨0, 100, 0, 2, 5⟩ : Blob).intensity = (⟨0, 1400, 0, 2, 5⟩ : Blob).intensity ∧
    (sortBlobsDesc ex17).getD 1 default = ⟨0, 1400, 0, 2, 5⟩ ∧
    (sortBlobsDesc ex17).getD 14 default = ⟨0, 100, 0, 2, 5⟩ ∧
    suppress_close_blobs_by_intensity ex17 10 2 = sortBlobsDesc ex17 := by
  refine ⟨by decide, by decide, by decide, by decide, by decide, by decide⟩

/-- C8 counterexample: on the same seventeen far-apart equal-intensity
records nothing is ever suppressed, but re-running the suppressor re-applies
the unstable quicksort permutation to its own output, so the second run
returns a differently ordered list. -/
theorem proximity_not_idempotent_on_17_ties :
    suppress_close_blobs_by_intensity
        (suppress_close_blobs_by_intensity ex17 10 2) 10 2 ≠
      suppress_close_blobs_by_intensity ex17 10 2 := by
  decide

end SortCounterexamples

/-- C3 amended: for inputs of at most 16 records (numpy's insertion-sort
regime) the processing order is the descending-intensity sort, it is stable
— the subsequence of records at any fixed intensity equals that of the
input — and the suppressor's output is the surviving records as a
subsequence of that order.  (For 17 or more records the default quicksort
may reorder equal intensities, see the counterexample.) -/
theorem sort_descending_and_stable_upto16 (blobs : List Blob)
    (radius_xy z_window : ℚ) (h : blobs.length ≤ 16) :
    (sortBlobsDesc blobs).Pairwise (fun a b => b.intensity ≤ a.intensity) ∧
    (∀ q : ℚ, (sortBlobsDesc blobs).filter (fun b => decide (b.intensity = q)) =
      blobs.filter fun b => decide (b.intensity = q)) ∧
    (suppress_close_blobs_by_intensity blobs radius_xy z_window).Sublist
      (sortBlobsDesc blobs) :=
  ⟨sortBlobsDesc_small_sorted blobs h, fun q => sortBlobsDesc_small_stable blobs h q,
    suppress_sublist blobs radius_xy z_window⟩

/-- Witness for C3 (amended) on a concrete two-record list. -/
theorem sort_descending_and_stable_upto16_witness :
    (sortBlobsDesc [bA, bB]).Pairwise fun a b => b.intensity ≤ a.intensity :=
  (sort_descending_and_stable_upto16 [bA, bB] 10 2 (by decide)).1

/-- C8 amended: ProximitySuppressor is idempotent on inputs of at most 16
records (numpy's stable insertion-sort regime); with 17 or more records the
second run's quicksort may permute equal-intensity survivors, see the
counterexample. -/
theorem proximity_idempotent_upto16 (blobs : List Blob) (radius_xy z_window : ℚ)
    (h : blobs.length ≤ 16) :
    suppress_close_blobs_by_intensity
        (suppress_close_blobs_by_intensity blobs radius_xy z_window)
        radius_xy z_window =
      suppress_close_blobs_by_intensity blobs radius_xy z_window := by
  by_cases hb : blobs = []
  · rw [hb]
    rfl
  · have hsub := suppress_sublist blobs radius_xy z_window
    have hsorted :
        (suppress_close_blobs_by_intensity blobs radius_xy z_window).Pairwise
          fun a b => b.intensity ≤ a.intensity :=
      (sortBlobsDesc_small_sorted blobs h).sublist hsub
    have hlen : (suppress_close_blobs_by_intensity blobs radius_xy z_window).length ≤ 16 :=
      le_trans hsub.length_le
        (le_trans (le_of_eq (sortBlobsDesc_small_perm blobs h).length_eq) h)
    have hgate :
        (suppress_close_blobs_by_intensity blobs radius_xy z_window).Pairwise
          fun a b => ¬ inWindow z_window radius_xy a b := by
      unfold suppress_close_blobs_by_intensity
      rw [if_neg hb]
      exact pairwise_keptBlobs_outerPass z_window radius_xy _ _ (le_refl _)
    exact suppress_close_fixed _ radius_xy z_window hlen hsorted hgate

/-- Witness for C8 (amended) on a concrete two-record list. -/
theorem proximity_idempotent_upto16_witness :
    suppress_close_blobs_by_intensity
        (suppress_close_blobs_by_intensity [bA, bB] 10 2) 10 2 =
      suppress_close_blobs_by_intensity [bA, bB] 10 2 :=
  proximity_idempotent_upto16 [bA, bB] 10 2 (by decide)

end BlobDetect
